import Mathlib

/-
Verification of write_output_tables.py (ViroScan): a shallow embedding of
the script in Lean 4.  The script parses a breseq summary.json document,
computes the percentage of mapped reads per reference, filters by a
threshold, sorts the reference names alphanumerically and emits two
tab-separated outputs.  The embedding models the parsed JSON document, the
Python exceptions the script can raise (it installs no handler, so every
exception aborts the run), and the three functions parse_json_file,
natural_sort and write_results.  Python machine floats are modelled as
exact rationals; all concrete values exercised below are unaffected by
binary representation error.  Apostrophes are avoided throughout.
-/

set_option maxHeartbeats 1000000

/-- Python exceptions that the script can raise while processing the parsed
JSON document: KeyError from a missing dict key, TypeError from an
operation on values of mismatched types, ZeroDivisionError from a division
by zero. -/
inductive PyErr where
  | keyError (k : String)
  | typeError
  | zeroDivisionError
deriving DecidableEq

/-- Model of a parsed JSON value as produced by json.load: Python ints and
floats (kept in separate constructors so that str distinguishes them),
strings, booleans, None, and dicts as association lists in insertion order
(Python dicts have unique keys; theorems that depend on it carry the
corresponding Nodup hypothesis).  JSON arrays do not occur in the breseq
summary shape this script reads and are omitted from the model. -/
inductive JVal where
  | jint (n : ℤ)
  | jfloat (q : ℚ)
  | jstr (s : String)
  | jbool (b : Bool)
  | jnull
  | jobj (entries : List (String × JVal))

/-- Python subscript v[k] with a string key: dict lookup raising KeyError
when the key is absent; subscripting a string, a number, a boolean or None
with a string key raises TypeError. -/
def pyGetItem : JVal → String → Except PyErr JVal
  | .jobj l, k =>
    match l.lookup k with
    | some v => .ok v
    | none => .error (.keyError k)
  | _, _ => .error .typeError

/-- Python for-loop iteration: iterating a dict yields its keys in
insertion order; iterating a string yields its one-character substrings;
numbers, booleans and None are not iterable and raise TypeError. -/
def iterKeys : JVal → Except PyErr (List String)
  | .jobj l => .ok (l.map Prod.fst)
  | .jstr s => .ok (s.data.map (fun c => String.mk [c]))
  | _ => .error .typeError

/-- Numeric view of a Python value: ints and floats are numbers, and bool
is an int subclass with True = 1 and False = 0. -/
def pyToNum : JVal → Option ℚ
  | .jint n => some (n : ℚ)
  | .jfloat q => some q
  | .jbool b => some (if b then 1 else 0)
  | _ => none

/-- Exact quotient of two rationals, computed on numerators and
denominators with the reducible primitive Rat.divInt so that concrete runs
evaluate inside the kernel; ratDiv_eq below identifies it with the field
division of ℚ. -/
def ratDiv (x y : ℚ) : ℚ := Rat.divInt (x.num * (y.den : ℤ)) ((x.den : ℤ) * y.num)

/-- Product of a rational with a natural number, computed on the numerator
with the reducible primitive mkRat; ratMulNat_eq below identifies it with
the field multiplication of ℚ. -/
def ratMulNat (x : ℚ) (k : ℕ) : ℚ := mkRat (x.num * (k : ℤ)) x.den

/-- Python true division a / b: TypeError unless both operands are
numeric, ZeroDivisionError when the divisor is zero, otherwise the exact
quotient. -/
def pyDiv (a b : JVal) : Except PyErr ℚ :=
  match pyToNum a, pyToNum b with
  | some x, some y => if y = 0 then .error .zeroDivisionError else .ok (ratDiv x y)
  | _, _ => .error .typeError

/-- Number of tenths of x rounded to the nearest integer with ties to the
even integer, computed by integer arithmetic on the numerator and
denominator: n is the floor of 10x and r the remainder, so the fractional
part of 10x is r over the denominator. -/
def roundTenths (x : ℚ) : ℤ :=
  let tn : ℤ := x.num * 10
  let d : ℤ := (x.den : ℤ)
  let n : ℤ := Int.fdiv tn d
  let r : ℤ := tn - n * d
  if 2 * r < d then n
  else if d < 2 * r then n + 1
  else if Int.emod n 2 = 0 then n else n + 1

/-- Python round(x, 1): round to one decimal place, ties to even;
pyRound1_eq below identifies it with the specification-level rounding
round1 written with the floor and fractional-part functions of Mathlib. -/
def pyRound1 (x : ℚ) : ℚ := mkRat (roundTenths x) 10

/-- Specification-level rounding of x to the nearest integer, ties to
even, written with the Mathlib floor and fractional part. -/
def roundEvenZ (x : ℚ) : ℤ :=
  if Int.fract x < 1/2 then ⌊x⌋
  else if 1/2 < Int.fract x then ⌊x⌋ + 1
  else if 2 ∣ ⌊x⌋ then ⌊x⌋ else ⌊x⌋ + 1

/-- Specification-level round to one decimal place, ties to even, written
with the field operations of ℚ. -/
def round1 (x : ℚ) : ℚ := (roundEvenZ (x * 10) : ℚ) / 10

/-- Loop of parse_json_file over the keys of the reference dict, in order:
look up the per-reference record and its num_reads_mapped_to_reference
field, divide by the total of aligned reads, scale to a percentage rounded
to one decimal place, and keep the entry when the percentage reaches the
threshold.  An exception in any iteration aborts the whole computation, as
in Python. -/
def processKeys (refsD tot : JVal) (threshold : ℚ) : List String → Except PyErr (List (String × ℚ))
  | [] => .ok []
  | ref :: rest =>
    match pyGetItem refsD ref with
    | .error e => .error e
    | .ok recd =>
      match pyGetItem recd "num_reads_mapped_to_reference" with
      | .error e => .error e
      | .ok nv =>
        match pyDiv nv tot with
        | .error e => .error e
        | .ok q =>
          match processKeys refsD tot threshold rest with
          | .error e => .error e
          | .ok tail =>
            if pyRound1 (ratMulNat q 100) ≥ threshold then
              .ok ((ref, pyRound1 (ratMulNat q 100)) :: tail)
            else .ok tail

/-- Model of parse_json_file from write_output_tables.py: read total_reads
and total_aligned_reads from the reads record (both passed through
unchanged, whatever their type), then walk the references.reference dict
computing round(float(num_reads_mapped_to_reference / total_aligned_reads)
* 100, 1) for each reference and keeping the entries at or above the
threshold.  The reads record is fetched twice, as in the source, and
exceptions propagate unhandled because the script installs no handler. -/
def parse_json_file (doc : JVal) (threshold : ℚ) :
    Except PyErr (JVal × JVal × List (String × ℚ)) :=
  match pyGetItem doc "reads" with
  | .error e => .error e
  | .ok reads1 =>
    match pyGetItem reads1 "total_reads" with
    | .error e => .error e
    | .ok nbrTotInputReads =>
      match pyGetItem doc "reads" with
      | .error e => .error e
      | .ok reads2 =>
        match pyGetItem reads2 "total_aligned_reads" with
        | .error e => .error e
        | .ok nbrTotMappedReads =>
          match pyGetItem doc "references" with
          | .error e => .error e
          | .ok refs1 =>
            match pyGetItem refs1 "reference" with
            | .error e => .error e
            | .ok refsD =>
              match iterKeys refsD with
              | .error e => .error e
              | .ok keys =>
                match processKeys refsD nbrTotMappedReads threshold keys with
                | .error e => .error e
                | .ok ent => .ok (nbrTotInputReads, nbrTotMappedReads, ent)

/-- Membership in the regex class [0-9]: the ASCII digits. -/
def isDigitChar (c : Char) : Bool := 48 ≤ c.toNat && c.toNat ≤ 57

/-- One step of re.split over the characters of the key, processed from
the right: an ASCII digit extends a pending digit run or opens a new one,
any other character extends a pending text part or opens a new one.  A
digit run is recognised by its first character, which suffices because
text parts contain no ASCII digit. -/
def splitStep (c : Char) (acc : List (List Char)) : List (List Char) :=
  match acc with
  | [] => [[c]]
  | p :: ps =>
    if isDigitChar c then
      match p with
      | d :: r => if isDigitChar d then (c :: d :: r) :: ps else [c] :: (d :: r) :: ps
      | [] => [c] :: [] :: ps
    else
      match p with
      | d :: r => if isDigitChar d then [c] :: (d :: r) :: ps else (c :: d :: r) :: ps
      | [] => [c] :: ps

/-- Accumulation of the split parts of a character list, rightmost
character first, seeded with one empty text part. -/
def splitRuns (cs : List Char) : List (List Char) := cs.foldr splitStep [[]]

/-- Model of re.split("([0-9]+)", key) on the character list of the key:
the result alternates text parts (possibly empty, free of ASCII digits)
with nonempty maximal ASCII digit runs, beginning and ending with a text
part, exactly as re.split returns when the pattern is a single capturing
group of digits. -/
def reSplitL (cs : List Char) : List (List Char) :=
  match splitRuns cs with
  | [] => [[]]
  | p :: ps =>
    match p with
    | [] => [] :: ps
    | d :: r => if isDigitChar d then [] :: (d :: r) :: ps else (d :: r) :: ps

/-- The re.split call of natural_sort, on strings. -/
def re_split (s : String) : List String := (reSplitL s.data).map String.mk

/-- Characters accepted by Python str.isdigit, restricted to the ASCII
digits and the Arabic-Indic digit block U+0660 to U+0669.  Python accepts
every Unicode decimal digit; these two blocks are the representative
subset the model covers.  The regex [0-9] of re.split, by contrast,
captures only the ASCII block. -/
def pyCharIsDigit (c : Char) : Bool :=
  isDigitChar c || (1632 ≤ c.toNat && c.toNat ≤ 1641)

/-- Python str.isdigit: true on nonempty strings all of whose characters
are digit characters. -/
def pyIsDigit (s : String) : Bool := !s.data.isEmpty && s.data.all pyCharIsDigit

/-- Decimal value of a single digit character of the modelled blocks. -/
def pyDigitVal (c : Char) : ℕ :=
  if 1632 ≤ c.toNat then c.toNat - 1632 else c.toNat - 48

/-- Python int applied to a string of digit characters. -/
def pyInt (s : String) : ℕ := s.data.foldl (fun n c => 10 * n + pyDigitVal c) 0

/-- Python str.lower on the ASCII range; the full Unicode lowering of
Python agrees with it on every identifier considered here. -/
def pyLower (s : String) : String := String.mk (s.data.map Char.toLower)

/-- Sort token: a digit run converted to its integer value, or any other
run lowercased, mirroring the convert lambda of natural_sort. -/
inductive Tok where
  | num (n : ℕ)
  | str (s : String)
deriving DecidableEq

/-- The convert lambda of natural_sort: int(text) when text.isdigit() and
text.lower() otherwise. -/
def convert (text : String) : Tok :=
  if pyIsDigit text then .num (pyInt text) else .str (pyLower text)

/-- The alphanum_key lambda of natural_sort: convert applied to every
piece of re.split("([0-9]+)", key). -/
def alphanum_key (key : String) : List Tok := (re_split key).map convert

/-- Lexicographic strict order on character lists by code point, the order
Python uses on strings. -/
def strLtB : List Char → List Char → Bool
  | [], [] => false
  | [], _ :: _ => true
  | _ :: _, [] => false
  | a :: as, b :: bs =>
    if a.toNat < b.toNat then true
    else if b.toNat < a.toNat then false
    else strLtB as bs

/-- Python equality between two sort tokens: values of distinct types are
unequal, without error. -/
def pyTokEq : Tok → Tok → Bool
  | .num a, .num b => a == b
  | .str a, .str b => a == b
  | _, _ => false

/-- Python strict comparison between two sort tokens: comparing an int
with a str raises TypeError. -/
def pyTokLt : Tok → Tok → Except PyErr Bool
  | .num a, .num b => .ok (decide (a < b))
  | .str a, .str b => .ok (strLtB a.data b.data)
  | _, _ => .error .typeError

/-- Python comparison of two lists: scan for the first position where the
elements are unequal and compare there; when one list is a strict prefix
of the other the shorter is smaller. -/
def pyListLt : List Tok → List Tok → Except PyErr Bool
  | [], [] => .ok false
  | [], _ :: _ => .ok true
  | _ :: _, [] => .ok false
  | a :: as, b :: bs => if pyTokEq a b then pyListLt as bs else pyTokLt a b

/-- Key comparison realised by sorted(..., key=alphanum_key): k1 may come
no later than k2 exactly when the alphanum key of k2 is not strictly below
that of k1; with this relation a stable sort reproduces the CPython
result. -/
def keyLe (k1 k2 : String) : Except PyErr Bool :=
  match pyListLt (alphanum_key k2) (alphanum_key k1) with
  | .error e => .error e
  | .ok b => .ok !b

/-- Insertion of a key into an already sorted key list, before the first
resident key it may precede; a comparison error aborts, as a TypeError
escaping sorted would. -/
def insertE (a : String) : List String → Except PyErr (List String)
  | [] => .ok [a]
  | b :: l =>
    match keyLe a b with
    | .error e => .error e
    | .ok true => .ok (a :: b :: l)
    | .ok false =>
      match insertE a l with
      | .error e => .error e
      | .ok l2 => .ok (b :: l2)

/-- The stable ascending sort performed by sorted(...), realised as
insertion sort: it yields the same ordering as the CPython sort whenever
every needed key comparison is defined, and surfaces the TypeError
otherwise. -/
def sortE : List String → Except PyErr (List String)
  | [] => .ok []
  | a :: l =>
    match sortE l with
    | .error e => .error e
    | .ok l2 => insertE a l2

/-- Model of natural_sort from write_output_tables.py: sort the dict keys
with alphanum_key and rebuild the dict in sorted key order, reading each
value back from the input dict. -/
def natural_sort (m : List (String × ℚ)) : Except PyErr (List (String × ℚ)) :=
  match sortE (m.map Prod.fst) with
  | .error e => .error e
  | .ok listKeysSort =>
    .ok (listKeysSort.filterMap (fun k => (m.lookup k).map (fun v => (k, v))))

/-- Python str of a one-decimal float such as the rounded percentages:
integer part, dot, tenths digit.  Faithful for the nonnegative multiples
of one tenth that the pipeline prints. -/
def pyFloatStr (q : ℚ) : String :=
  let k : ℤ := Int.ediv (q.num * 10) (q.den : ℤ)
  toString (Int.ediv k 10) ++ "." ++ toString (Int.emod k 10)

/-- Python str of the scalar values the writer can receive.  A dict value
is abbreviated; no claim prints one. -/
def pyStr : JVal → String
  | .jint n => toString n
  | .jfloat q => pyFloatStr q
  | .jstr s => s
  | .jbool b => if b then "True" else "False"
  | .jnull => "None"
  | .jobj _ => "dict"

/-- Model of write_results from write_output_tables.py: the counts line
for the sample and the table lines, one line per reference in sorted
order, all tab separated, in the order Python prints them. -/
def write_results (nbrTotInputReads nbrTotMappedReads : JVal)
    (dictSort : List (String × ℚ)) (sample : String) : String × List String :=
  (sample ++ "\t" ++ pyStr nbrTotInputReads ++ "\t" ++ pyStr nbrTotMappedReads,
   dictSort.map (fun e => sample ++ "\t" ++ e.1 ++ "\t" ++ pyFloatStr e.2))

/-- The main block of the script after argument parsing: parse, sort,
write.  An uncaught exception anywhere aborts the run, which then exits
nonzero after printing a traceback. -/
def run_pipeline (doc : JVal) (threshold : ℚ) (sample : String) :
    Except PyErr (String × List String) :=
  match parse_json_file doc threshold with
  | .error e => .error e
  | .ok (tr, tm, ent) =>
    match natural_sort ent with
    | .error e => .error e
    | .ok sortedEnt => .ok (write_results tr tm sortedEnt sample)

/-- The end-to-end scenario document of the spec. -/
def docC6 : JVal :=
  .jobj [("reads", .jobj [("total_reads", .jint 1000), ("total_aligned_reads", .jint 500)]),
         ("references", .jobj [("reference", .jobj
           [("chr1", .jobj [("num_reads_mapped_to_reference", .jint 400)]),
            ("chr2", .jobj [("num_reads_mapped_to_reference", .jint 100)])])])]

/-- A document whose total_aligned_reads is zero while one reference is
present. -/
def docZeroAligned : JVal :=
  .jobj [("reads", .jobj [("total_reads", .jint 1000), ("total_aligned_reads", .jint 0)]),
         ("references", .jobj [("reference", .jobj
           [("chr1", .jobj [("num_reads_mapped_to_reference", .jint 5)])])])]

/-- A document whose required reads.total_reads value is the string "abc",
hence non-numeric. -/
def docStrTotal : JVal :=
  .jobj [("reads", .jobj [("total_reads", .jstr "abc"), ("total_aligned_reads", .jint 500)]),
         ("references", .jobj [("reference", .jobj
           [("chr1", .jobj [("num_reads_mapped_to_reference", .jint 400)])])])]

/-- A document whose total_aligned_reads is zero and whose reference dict
is empty. -/
def docZeroEmpty : JVal :=
  .jobj [("reads", .jobj [("total_reads", .jint 1000), ("total_aligned_reads", .jint 0)]),
         ("references", .jobj [("reference", .jobj [])])]

/-- A document whose single reference record lacks the required
num_reads_mapped_to_reference key. -/
def docMissingNum : JVal :=
  .jobj [("reads", .jobj [("total_reads", .jint 1000), ("total_aligned_reads", .jint 500)]),
         ("references", .jobj [("reference", .jobj [("chr1", .jobj [])])])]

/-- A document whose per-reference read count is the string "40", hence
non-numeric. -/
def docStrNum : JVal :=
  .jobj [("reads", .jobj [("total_reads", .jint 1000), ("total_aligned_reads", .jint 500)]),
         ("references", .jobj [("reference", .jobj
           [("chr1", .jobj [("num_reads_mapped_to_reference", .jstr "40")])])])]

/-- A document whose total_aligned_reads is the string "500x", hence
non-numeric, with one reference present. -/
def docStrAligned : JVal :=
  .jobj [("reads", .jobj [("total_reads", .jint 1000), ("total_aligned_reads", .jstr "500x")]),
         ("references", .jobj [("reference", .jobj
           [("chr1", .jobj [("num_reads_mapped_to_reference", .jint 400)])])])]

/-- The computational division agrees with the field division of ℚ. -/
theorem ratDiv_eq (x y : ℚ) : ratDiv x y = x / y := by
  unfold ratDiv
  rw [Rat.divInt_eq_div]
  by_cases hy : y.num = 0
  · rw [hy, Rat.num_eq_zero.mp hy]
    push_cast
    simp
  · have hxd : ((x.den : ℕ) : ℚ) ≠ 0 := Nat.cast_ne_zero.mpr x.den_pos.ne'
    have hyd : ((y.den : ℕ) : ℚ) ≠ 0 := Nat.cast_ne_zero.mpr y.den_pos.ne'
    have hyn : ((y.num : ℤ) : ℚ) ≠ 0 := by exact_mod_cast hy
    conv_rhs => rw [← Rat.num_div_den x, ← Rat.num_div_den y]
    push_cast
    field_simp

/-- The computational scalar product agrees with the field product of ℚ. -/
theorem ratMulNat_eq (x : ℚ) (k : ℕ) : ratMulNat x k = x * (k : ℚ) := by
  unfold ratMulNat
  rw [Rat.mkRat_eq_div]
  conv_rhs => rw [← Rat.num_div_den x]
  push_cast
  rw [div_mul_eq_mul_div]

/-- Core fact for the rounding bridge: the integer-level tie detection on
a fraction with positive denominator matches the floor-based
specification rounding of that fraction. -/
theorem roundCore (tn d : ℤ) (hd : 0 < d) :
    (if 2 * (tn - Int.fdiv tn d * d) < d then Int.fdiv tn d
     else if d < 2 * (tn - Int.fdiv tn d * d) then Int.fdiv tn d + 1
     else if Int.emod (Int.fdiv tn d) 2 = 0 then Int.fdiv tn d else Int.fdiv tn d + 1)
    = roundEvenZ ((tn : ℚ) / (d : ℚ)) := by
  have hdq : (0 : ℚ) < ((d : ℤ) : ℚ) := by exact_mod_cast hd
  have hfd : Int.fdiv tn d = tn / d := Int.fdiv_eq_ediv tn hd.le
  have hmod : d * (tn / d) + tn % d = tn := Int.ediv_add_emod tn d
  have hr0 : 0 ≤ tn % d := Int.emod_nonneg tn hd.ne'
  have hr1 : tn % d < d := Int.emod_lt_of_pos tn hd
  have hcomm : (tn / d) * d = d * (tn / d) := mul_comm _ _
  have hrval : tn - (tn / d) * d = tn % d := by linarith
  have hfloor : ⌊(tn : ℚ) / (d : ℚ)⌋ = tn / d := by
    rw [Int.floor_eq_iff]
    constructor
    · rw [le_div_iff₀ hdq]
      exact_mod_cast by linarith
    · have hz : (tn : ℤ) < (tn / d + 1) * d := by nlinarith
      rw [div_lt_iff₀ hdq]
      exact_mod_cast hz
  have hfract : Int.fract ((tn : ℚ) / (d : ℚ)) = ((tn % d : ℤ) : ℚ) / (d : ℚ) := by
    rw [← Int.self_sub_floor, hfloor]
    rw [div_sub' _ _ _ hdq.ne', ← hrval]
    push_cast
    ring_nf
  have hlt : ((tn % d : ℤ) : ℚ) / (d : ℚ) < 1 / 2 ↔ 2 * (tn % d) < d := by
    rw [div_lt_iff₀ hdq]
    constructor
    · intro h
      have h2 : ((tn % d : ℤ) : ℚ) * 2 < (d : ℚ) := by nlinarith
      have h3 : ((2 * (tn % d) : ℤ) : ℚ) < ((d : ℤ) : ℚ) := by push_cast; linarith
      exact_mod_cast h3
    · intro h
      have h3 : ((2 * (tn % d) : ℤ) : ℚ) < ((d : ℤ) : ℚ) := by exact_mod_cast h
      push_cast at h3
      nlinarith
  have hgt : (1 : ℚ) / 2 < ((tn % d : ℤ) : ℚ) / (d : ℚ) ↔ d < 2 * (tn % d) := by
    rw [lt_div_iff₀ hdq]
    constructor
    · intro h
      have h3 : ((d : ℤ) : ℚ) < ((2 * (tn % d) : ℤ) : ℚ) := by push_cast; nlinarith
      exact_mod_cast h3
    · intro h
      have h3 : ((d : ℤ) : ℚ) < ((2 * (tn % d) : ℤ) : ℚ) := by exact_mod_cast h
      push_cast at h3
      nlinarith
  have hdvd : (2 ∣ (tn / d)) ↔ Int.emod (tn / d) 2 = 0 := Int.dvd_iff_emod_eq_zero
  unfold roundEvenZ
  rw [hfloor, hfract, hfd, hrval]
  by_cases hc1 : 2 * (tn % d) < d
  · rw [if_pos hc1, if_pos (hlt.mpr hc1)]
  · rw [if_neg hc1, if_neg (fun h => hc1 (hlt.mp h))]
    by_cases hc2 : d < 2 * (tn % d)
    · rw [if_pos hc2, if_pos (hgt.mpr hc2)]
    · rw [if_neg hc2, if_neg (fun h => hc2 (hgt.mp h))]
      by_cases hc3 : Int.emod (tn / d) 2 = 0
      · rw [if_pos hc3, if_pos (hdvd.mpr hc3)]
      · rw [if_neg hc3, if_neg (fun h => hc3 (hdvd.mp h))]

/-- The integer-level rounding of tenths agrees with the floor-based
specification rounding of 10 x. -/
theorem roundTenths_eq (x : ℚ) : roundTenths x = roundEvenZ (x * 10) := by
  have hdz : (0 : ℤ) < (x.den : ℤ) := by exact_mod_cast x.den_pos
  have hx10 : x * 10 = ((x.num * 10 : ℤ) : ℚ) / ((x.den : ℤ) : ℚ) := by
    conv_lhs => rw [← Rat.num_div_den x]
    push_cast
    rw [div_mul_eq_mul_div]
  rw [hx10]
  exact roundCore (x.num * 10) (x.den : ℤ) hdz

/-- The computational one-decimal rounding agrees with the
specification-level round1. -/
theorem pyRound1_eq (x : ℚ) : pyRound1 x = round1 x := by
  unfold pyRound1 round1
  rw [Rat.mkRat_eq_div, roundTenths_eq]
  norm_num

/-- Successful division decomposes into its numeric views and a nonzero
divisor. -/
theorem pyDiv_ok {a b : JVal} {q : ℚ} (h : pyDiv a b = .ok q) :
    ∃ x y, pyToNum a = some x ∧ pyToNum b = some y ∧ y ≠ 0 ∧ q = ratDiv x y := by
  unfold pyDiv at h
  cases ha : pyToNum a with
  | none => simp [ha] at h
  | some x =>
    cases hb : pyToNum b with
    | none => simp [ha, hb] at h
    | some y =>
      simp [ha, hb] at h
      by_cases hy : y = 0
      · simp [hy] at h
      · rw [if_neg hy] at h
        exact ⟨x, y, rfl, rfl, hy, (Except.ok.injEq _ _ ▸ h).symm⟩

/-- Every entry that the reference loop emits carries the percentage
computed from its own record by the division, scaling and rounding of the
source, and that percentage reaches the threshold. -/
theorem processKeys_mem {refsD tot : JVal} {th : ℚ} :
    ∀ {keys : List String} {E : List (String × ℚ)},
      processKeys refsD tot th keys = .ok E → ∀ {r : String} {p : ℚ}, (r, p) ∈ E →
      ∃ recd nv x y, pyGetItem refsD r = .ok recd ∧
        pyGetItem recd "num_reads_mapped_to_reference" = .ok nv ∧
        pyToNum nv = some x ∧ pyToNum tot = some y ∧ y ≠ 0 ∧
        p = pyRound1 (ratMulNat (ratDiv x y) 100) ∧ th ≤ p := by
  intro keys
  induction keys with
  | nil =>
    intro E h r p hm
    unfold processKeys at h
    cases h
    cases hm
  | cons ref rest ih =>
    intro E h r p hm
    unfold processKeys at h
    cases h1 : pyGetItem refsD ref with
    | error e => simp [h1] at h
    | ok recd =>
      simp only [h1] at h
      cases h2 : pyGetItem recd "num_reads_mapped_to_reference" with
      | error e => simp [h2] at h
      | ok nv =>
        simp only [h2] at h
        cases h3 : pyDiv nv tot with
        | error e => simp [h3] at h
        | ok q =>
          simp only [h3] at h
          cases h4 : processKeys refsD tot th rest with
          | error e => simp [h4] at h
          | ok tail =>
            simp only [h4] at h
            by_cases hth : pyRound1 (ratMulNat q 100) ≥ th
            · rw [if_pos hth] at h
              cases h
              rcases List.mem_cons.mp hm with heq | hmem
              · cases heq
                obtain ⟨x, y, hx, hyy, hy0, hq⟩ := pyDiv_ok h3
                exact ⟨recd, nv, x, y, h1, h2, hx, hyy, hy0, by rw [hq], hth⟩
              · exact ih h4 hmem
            · rw [if_neg hth] at h
              cases h
              exact ih h4 hm

/-- The references kept by the loop form a sublist of the keys iterated
over, in order. -/
theorem processKeys_sublist {refsD tot : JVal} {th : ℚ} :
    ∀ {keys : List String} {E : List (String × ℚ)},
      processKeys refsD tot th keys = .ok E → (E.map Prod.fst).Sublist keys := by
  intro keys
  induction keys with
  | nil =>
    intro E h
    unfold processKeys at h
    cases h
    exact List.Sublist.refl _
  | cons ref rest ih =>
    intro E h
    unfold processKeys at h
    cases h1 : pyGetItem refsD ref with
    | error e => simp [h1] at h
    | ok recd =>
      simp only [h1] at h
      cases h2 : pyGetItem recd "num_reads_mapped_to_reference" with
      | error e => simp [h2] at h
      | ok nv =>
        simp only [h2] at h
        cases h3 : pyDiv nv tot with
        | error e => simp [h3] at h
        | ok q =>
          simp only [h3] at h
          cases h4 : processKeys refsD tot th rest with
          | error e => simp [h4] at h
          | ok tail =>
            simp only [h4] at h
            by_cases hth : pyRound1 (ratMulNat q 100) ≥ th
            · rw [if_pos hth] at h
              cases h
              exact List.Sublist.cons₂ ref (ih h4)
            · rw [if_neg hth] at h
              cases h
              exact List.Sublist.cons ref (ih h4)

/-- A reference among the iterated keys whose computed percentage reaches
the threshold appears among the kept entries. -/
theorem processKeys_mem_of_qual {refsD tot : JVal} {th : ℚ} {recd nv : JVal} {q : ℚ} :
    ∀ {keys : List String} {E : List (String × ℚ)} {r : String},
      processKeys refsD tot th keys = .ok E → r ∈ keys →
      pyGetItem refsD r = .ok recd →
      pyGetItem recd "num_reads_mapped_to_reference" = .ok nv →
      pyDiv nv tot = .ok q →
      th ≤ pyRound1 (ratMulNat q 100) →
      r ∈ E.map Prod.fst := by
  intro keys
  induction keys with
  | nil =>
    intro E r _ hk
    cases hk
  | cons ref rest ih =>
    intro E r h hk hrecd hnv hq hth
    unfold processKeys at h
    cases h1 : pyGetItem refsD ref with
    | error e => simp [h1] at h
    | ok recd1 =>
      simp only [h1] at h
      cases h2 : pyGetItem recd1 "num_reads_mapped_to_reference" with
      | error e => simp [h2] at h
      | ok nv1 =>
        simp only [h2] at h
        cases h3 : pyDiv nv1 tot with
        | error e => simp [h3] at h
        | ok q1 =>
          simp only [h3] at h
          cases h4 : processKeys refsD tot th rest with
          | error e => simp [h4] at h
          | ok tail =>
            simp only [h4] at h
            rcases List.mem_cons.mp hk with heq | hmem
            · subst heq
              have hrecd1 : recd1 = recd := by
                rw [h1] at hrecd
                exact (Except.ok.injEq _ _ ▸ hrecd)
              subst hrecd1
              have hnv1 : nv1 = nv := by
                rw [h2] at hnv
                exact (Except.ok.injEq _ _ ▸ hnv)
              subst hnv1
              have hq1 : q1 = q := by
                rw [h3] at hq
                exact (Except.ok.injEq _ _ ▸ hq)
              subst hq1
              rw [if_pos hth] at h
              cases h
              exact List.mem_cons_self _ _
            · by_cases hth1 : pyRound1 (ratMulNat q1 100) ≥ th
              · rw [if_pos hth1] at h
                cases h
                exact List.mem_cons_of_mem _ (ih h4 hmem hrecd hnv hq hth)
              · rw [if_neg hth1] at h
                cases h
                exact ih h4 hmem hrecd hnv hq hth

/-- Decomposition of a successful parse into its successive lookups and
the loop over the reference keys. -/
theorem parse_ok {doc : JVal} {th : ℚ} {tr tm : JVal} {E : List (String × ℚ)}
    (h : parse_json_file doc th = .ok (tr, tm, E)) :
    ∃ reads refs1 refsD keys,
      pyGetItem doc "reads" = .ok reads ∧
      pyGetItem reads "total_reads" = .ok tr ∧
      pyGetItem reads "total_aligned_reads" = .ok tm ∧
      pyGetItem doc "references" = .ok refs1 ∧
      pyGetItem refs1 "reference" = .ok refsD ∧
      iterKeys refsD = .ok keys ∧
      processKeys refsD tm th keys = .ok E := by
  unfold parse_json_file at h
  cases h1 : pyGetItem doc "reads" with
  | error e => simp [h1] at h
  | ok reads =>
    simp only [h1] at h
    cases h2 : pyGetItem reads "total_reads" with
    | error e => simp [h2] at h
    | ok tr1 =>
      simp only [h2] at h
      cases h3 : pyGetItem reads "total_aligned_reads" with
      | error e => simp [h3] at h
      | ok tm1 =>
        simp only [h3] at h
        cases h4 : pyGetItem doc "references" with
        | error e => simp [h4] at h
        | ok refs1 =>
          simp only [h4] at h
          cases h5 : pyGetItem refs1 "reference" with
          | error e => simp [h5] at h
          | ok refsD =>
            simp only [h5] at h
            cases h6 : iterKeys refsD with
            | error e => simp [h6] at h
            | ok keys =>
              simp only [h6] at h
              cases h7 : processKeys refsD tm1 th keys with
              | error e => simp [h7] at h
              | ok ent =>
                simp only [h7] at h
                cases h
                exact ⟨reads, refs1, refsD, keys, rfl, h2, h3, rfl, h5, h6, h7⟩

/-- Insertion returns a permutation of the inserted element consed onto
the list. -/
theorem insertE_ok_perm {a : String} :
    ∀ {l l2 : List String}, insertE a l = .ok l2 → l2.Perm (a :: l) := by
  intro l
  induction l with
  | nil =>
    intro l2 h
    unfold insertE at h
    cases h
    exact List.Perm.refl _
  | cons b t ih =>
    intro l2 h
    unfold insertE at h
    cases h1 : keyLe a b with
    | error e => simp [h1] at h
    | ok c =>
      simp only [h1] at h
      cases c with
      | true =>
        simp only [] at h
        cases h
        exact List.Perm.refl _
      | false =>
        simp only [] at h
        cases h2 : insertE a t with
        | error e => simp [h2] at h
        | ok l3 =>
          simp only [h2] at h
          cases h
          exact (List.Perm.cons b (ih h2)).trans (List.Perm.swap a b t)

/-- The sort returns a permutation of its input whenever it succeeds. -/
theorem sortE_ok_perm :
    ∀ {l l2 : List String}, sortE l = .ok l2 → l2.Perm l := by
  intro l
  induction l with
  | nil =>
    intro l2 h
    unfold sortE at h
    cases h
    exact List.Perm.refl _
  | cons a t ih =>
    intro l2 h
    unfold sortE at h
    cases h1 : sortE t with
    | error e => simp [h1] at h
    | ok ts =>
      simp only [h1] at h
      exact (insertE_ok_perm h).trans (List.Perm.cons a (ih h1))

/-- Insertion succeeds when the incoming key compares against every
resident key without error. -/
theorem insertE_total {a : String} :
    ∀ {l : List String}, (∀ b ∈ l, ∃ r, keyLe a b = .ok r) →
      ∃ l2, insertE a l = .ok l2 := by
  intro l
  induction l with
  | nil => intro _; exact ⟨[a], rfl⟩
  | cons b t ih =>
    intro hcomp
    obtain ⟨r, hr⟩ := hcomp b (List.mem_cons_self b t)
    cases r with
    | true => exact ⟨a :: b :: t, by unfold insertE; rw [hr]⟩
    | false =>
      obtain ⟨l3, hl3⟩ := ih (fun c hc => hcomp c (List.mem_cons_of_mem _ hc))
      exact ⟨b :: l3, by unfold insertE; rw [hr, hl3]⟩

/-- The sort succeeds when every pair of keys compares without error. -/
theorem sortE_total :
    ∀ {l : List String}, (∀ a ∈ l, ∀ b ∈ l, ∃ r, keyLe a b = .ok r) →
      ∃ l2, sortE l = .ok l2 := by
  intro l
  induction l with
  | nil => intro _; exact ⟨[], rfl⟩
  | cons a t ih =>
    intro hcomp
    obtain ⟨ts, hts⟩ := ih (fun c hc d hd =>
      hcomp c (List.mem_cons_of_mem _ hc) d (List.mem_cons_of_mem _ hd))
    have hperm := sortE_ok_perm hts
    obtain ⟨l2, hl2⟩ := insertE_total (a := a) (l := ts) (fun b hb =>
      hcomp a (List.mem_cons_self a t) b (List.mem_cons_of_mem _ (hperm.mem_iff.mp hb)))
    exact ⟨l2, by unfold sortE; rw [hts]; exact hl2⟩

/-- A successful association lookup exhibits a member of the list. -/
theorem lookup_mem :
    ∀ {m : List (String × ℚ)} {k : String} {v : ℚ},
      m.lookup k = some v → (k, v) ∈ m := by
  intro m
  induction m with
  | nil => intro k v h; cases h
  | cons e t ih =>
    intro k v h
    rw [List.lookup_cons] at h
    cases hb : k == e.1 with
    | true =>
      rw [hb] at h
      cases h
      have : k = e.1 := eq_of_beq hb
      subst this
      exact List.mem_cons_self _ _
    | false =>
      rw [hb] at h
      exact List.mem_cons_of_mem _ (ih h)

/-- Rebuilding an association list from its own key list by lookup
recovers the list, when the keys are distinct. -/
theorem rebuild_eq :
    ∀ (m : List (String × ℚ)), (m.map Prod.fst).Nodup →
      (m.map Prod.fst).filterMap (fun k => (m.lookup k).map (fun v => (k, v))) = m := by
  intro m
  induction m with
  | nil => intro _; rfl
  | cons e t ih =>
    intro hnd
    obtain ⟨hne, hndt⟩ := List.nodup_cons.mp hnd
    have hme : (e.1, e.2) = e := rfl
    have hlk : List.lookup e.1 (e :: t) = some e.2 := by
      rw [← hme, List.lookup_cons]
      simp
    have hcong : ∀ k ∈ t.map Prod.fst,
        ((e :: t).lookup k).map (fun v => (k, v)) = (t.lookup k).map (fun v => (k, v)) := by
      intro k hk
      have hkne : k ≠ e.1 := fun hkk => hne (hkk ▸ hk)
      rw [← hme, List.lookup_cons]
      have : (k == e.1) = false := beq_false_of_ne hkne
      rw [this]
    calc (List.map Prod.fst (e :: t)).filterMap
          (fun k => ((e :: t).lookup k).map (fun v => (k, v)))
        = e :: (t.map Prod.fst).filterMap
            (fun k => ((e :: t).lookup k).map (fun v => (k, v))) := by
          rw [List.map_cons, List.filterMap_cons]
          rw [hlk]
          rfl
      _ = e :: (t.map Prod.fst).filterMap (fun k => (t.lookup k).map (fun v => (k, v))) := by
          rw [List.filterMap_congr hcong]
      _ = e :: t := by rw [ih hndt]

/-- Every entry of a successful natural_sort comes from the input
mapping. -/
theorem natural_sort_mem {m S : List (String × ℚ)} (h : natural_sort m = .ok S) :
    ∀ {e : String × ℚ}, e ∈ S → e ∈ m := by
  intro e he
  unfold natural_sort at h
  cases h1 : sortE (m.map Prod.fst) with
  | error er => simp [h1] at h
  | ok ks =>
    simp only [h1] at h
    cases h
    obtain ⟨k, _, hk2⟩ := List.mem_filterMap.mp he
    cases hlk : m.lookup k with
    | none => rw [hlk] at hk2; cases hk2
    | some v =>
      rw [hlk] at hk2
      cases hk2
      exact lookup_mem hlk

/-- A successful natural_sort permutes the entries of a mapping with
distinct keys. -/
theorem natural_sort_perm {m S : List (String × ℚ)}
    (hnd : (m.map Prod.fst).Nodup) (h : natural_sort m = .ok S) : S.Perm m := by
  unfold natural_sort at h
  cases h1 : sortE (m.map Prod.fst) with
  | error er => simp [h1] at h
  | ok ks =>
    simp only [h1] at h
    cases h
    have hperm : ks.Perm (m.map Prod.fst) := sortE_ok_perm h1
    have := hperm.filterMap (fun k => (m.lookup k).map (fun v => (k, v)))
    rw [rebuild_eq m hnd] at this
    exact this

/-- A captured digit run of the split: nonempty and all ASCII digits. -/
def isDigitRunL (p : List Char) : Prop := p ≠ [] ∧ ∀ c ∈ p, isDigitChar c = true

/-- A text part of the split: free of ASCII digits, possibly empty. -/
def isTextRunL (p : List Char) : Prop := ∀ c ∈ p, isDigitChar c = false

/-- Shape invariant of the split parts: the parts alternate between text
parts and digit runs, the last part is a text part, and the head is a
digit run exactly when the flag is true. -/
inductive PartsAlt : Bool → List (List Char) → Prop
  | lastText (p : List Char) : isTextRunL p → PartsAlt false [p]
  | consText (p : List Char) (rest : List (List Char)) :
      isTextRunL p → PartsAlt true rest → PartsAlt false (p :: rest)
  | consDigit (p : List Char) (rest : List (List Char)) :
      isDigitRunL p → PartsAlt false rest → PartsAlt true (p :: rest)

/-- One split step preserves the alternation invariant. -/
theorem stepAlt (c : Char) {b : Bool} {acc : List (List Char)}
    (h : PartsAlt b acc) : ∃ bb, PartsAlt bb (splitStep c acc) := by
  by_cases hc : isDigitChar c = true
  · cases h with
    | lastText p hp =>
      cases p with
      | nil =>
        refine ⟨true, ?_⟩
        simp only [splitStep, hc, if_true]
        exact PartsAlt.consDigit [c] [[]]
          ⟨List.cons_ne_nil c [], by intro x hx; rw [List.mem_singleton] at hx; subst hx; exact hc⟩
          (PartsAlt.lastText [] (by intro x hx; cases hx))
      | cons d r =>
        have hd : isDigitChar d = false := hp d (List.mem_cons_self d r)
        refine ⟨true, ?_⟩
        simp only [splitStep, hc, hd, if_true, Bool.false_eq_true, if_false]
        exact PartsAlt.consDigit [c] [d :: r]
          ⟨List.cons_ne_nil c [], by intro x hx; rw [List.mem_singleton] at hx; subst hx; exact hc⟩
          (PartsAlt.lastText (d :: r) hp)
    | consText p rest hp hrest =>
      cases p with
      | nil =>
        refine ⟨true, ?_⟩
        simp only [splitStep, hc, if_true]
        exact PartsAlt.consDigit [c] ([] :: rest)
          ⟨List.cons_ne_nil c [], by intro x hx; rw [List.mem_singleton] at hx; subst hx; exact hc⟩
          (PartsAlt.consText [] rest (by intro x hx; cases hx) hrest)
      | cons d r =>
        have hd : isDigitChar d = false := hp d (List.mem_cons_self d r)
        refine ⟨true, ?_⟩
        simp only [splitStep, hc, hd, if_true, Bool.false_eq_true, if_false]
        exact PartsAlt.consDigit [c] ((d :: r) :: rest)
          ⟨List.cons_ne_nil c [], by intro x hx; rw [List.mem_singleton] at hx; subst hx; exact hc⟩
          (PartsAlt.consText (d :: r) rest hp hrest)
    | consDigit p rest hp hrest =>
      obtain ⟨hpne, hpd⟩ := hp
      cases p with
      | nil => exact absurd rfl hpne
      | cons d r =>
        have hd : isDigitChar d = true := hpd d (List.mem_cons_self d r)
        refine ⟨true, ?_⟩
        simp only [splitStep, hc, hd, if_true]
        exact PartsAlt.consDigit (c :: d :: r) rest
          ⟨List.cons_ne_nil c _, by
            intro x hx
            rcases List.mem_cons.mp hx with h1 | h1
            · subst h1; exact hc
            · exact hpd x h1⟩
          hrest
  · have hcf : isDigitChar c = false := by simpa using hc
    cases h with
    | lastText p hp =>
      cases p with
      | nil =>
        refine ⟨false, ?_⟩
        simp only [splitStep, hcf, Bool.false_eq_true, if_false]
        exact PartsAlt.lastText [c]
          (by intro x hx; rw [List.mem_singleton] at hx; subst hx; exact hcf)
      | cons d r =>
        have hd : isDigitChar d = false := hp d (List.mem_cons_self d r)
        refine ⟨false, ?_⟩
        simp only [splitStep, hcf, hd, Bool.false_eq_true, if_false]
        exact PartsAlt.lastText (c :: d :: r) (by
          intro x hx
          rcases List.mem_cons.mp hx with h1 | h1
          · subst h1; exact hcf
          · exact hp x h1)
    | consText p rest hp hrest =>
      cases p with
      | nil =>
        refine ⟨false, ?_⟩
        simp only [splitStep, hcf, Bool.false_eq_true, if_false]
        exact PartsAlt.consText [c] rest
          (by intro x hx; rw [List.mem_singleton] at hx; subst hx; exact hcf) hrest
      | cons d r =>
        have hd : isDigitChar d = false := hp d (List.mem_cons_self d r)
        refine ⟨false, ?_⟩
        simp only [splitStep, hcf, hd, Bool.false_eq_true, if_false]
        exact PartsAlt.consText (c :: d :: r) rest (by
          intro x hx
          rcases List.mem_cons.mp hx with h1 | h1
          · subst h1; exact hcf
          · exact hp x h1) hrest
    | consDigit p rest hp hrest =>
      obtain ⟨hpne, hpd⟩ := hp
      cases p with
      | nil => exact absurd rfl hpne
      | cons d r =>
        have hd : isDigitChar d = true := hpd d (List.mem_cons_self d r)
        refine ⟨false, ?_⟩
        simp only [splitStep, hcf, hd, Bool.false_eq_true, if_false, if_true]
        exact PartsAlt.consText [c] ((d :: r) :: rest)
          (by intro x hx; rw [List.mem_singleton] at hx; subst hx; exact hcf)
          (PartsAlt.consDigit (d :: r) rest ⟨List.cons_ne_nil d r, hpd⟩ hrest)

/-- The accumulated split parts always satisfy the alternation invariant. -/
theorem splitRuns_alt (cs : List Char) : ∃ b, PartsAlt b (splitRuns cs) := by
  induction cs with
  | nil => exact ⟨false, PartsAlt.lastText [] (by intro x hx; cases hx)⟩
  | cons c rest ih =>
    obtain ⟨b, hb⟩ := ih
    have : splitRuns (c :: rest) = splitStep c (splitRuns rest) := rfl
    rw [this]
    exact stepAlt c hb

/-- The final split always satisfies the alternation invariant with a text
part in front. -/
theorem reSplitL_alt (cs : List Char) : PartsAlt false (reSplitL cs) := by
  obtain ⟨b, hb⟩ := splitRuns_alt cs
  cases hsr : splitRuns cs with
  | nil =>
    simp only [reSplitL, hsr]
    exact PartsAlt.lastText [] (by intro x hx; cases hx)
  | cons p ps =>
    rw [hsr] at hb
    cases p with
    | nil =>
      simp only [reSplitL, hsr]
      cases hb with
      | lastText _ hp => exact PartsAlt.lastText [] hp
      | consText _ _ hp hrest => exact PartsAlt.consText [] ps hp hrest
      | consDigit _ _ hp _ => exact absurd rfl hp.1
    | cons d r =>
      by_cases hd : isDigitChar d = true
      · simp only [reSplitL, hsr, hd, if_true]
        cases hb with
        | lastText _ hp => exact absurd (hp d (List.mem_cons_self d r)) (by rw [hd]; simp)
        | consText _ _ hp _ => exact absurd (hp d (List.mem_cons_self d r)) (by rw [hd]; simp)
        | consDigit _ _ hp hrest =>
          exact PartsAlt.consText [] ((d :: r) :: ps) (by intro x hx; cases hx)
            (PartsAlt.consDigit (d :: r) ps hp hrest)
      · have hdf : isDigitChar d = false := by simpa using hd
        simp only [reSplitL, hsr, hdf, Bool.false_eq_true, if_false]
        cases hb with
        | lastText _ hp => exact PartsAlt.lastText (d :: r) hp
        | consText _ _ hp hrest => exact PartsAlt.consText (d :: r) ps hp hrest
        | consDigit _ _ hp _ =>
          exact absurd (hp.2 d (List.mem_cons_self d r)) (fun hh => hd hh)

/-- Characters of the parts produced by one split step come from the new
character or from the previous parts. -/
theorem stepChars (c : Char) (acc : List (List Char)) :
    ∀ p ∈ splitStep c acc, ∀ x ∈ p, x = c ∨ ∃ p2 ∈ acc, x ∈ p2 := by
  intro p hp x hx
  cases acc with
  | nil =>
    simp only [splitStep] at hp
    rw [List.mem_singleton] at hp
    subst hp
    rw [List.mem_singleton] at hx
    exact Or.inl hx
  | cons p1 ps =>
    by_cases hc : isDigitChar c = true
    · cases p1 with
      | nil =>
        simp only [splitStep, hc, if_true] at hp
        rcases List.mem_cons.mp hp with h1 | h1
        · subst h1
          rw [List.mem_singleton] at hx
          exact Or.inl hx
        · exact Or.inr ⟨p, h1, hx⟩
      | cons d r =>
        by_cases hd : isDigitChar d = true
        · simp only [splitStep, hc, hd, if_true] at hp
          rcases List.mem_cons.mp hp with h1 | h1
          · subst h1
            rcases List.mem_cons.mp hx with h2 | h2
            · exact Or.inl h2
            · exact Or.inr ⟨d :: r, List.mem_cons_self _ _, h2⟩
          · exact Or.inr ⟨p, List.mem_cons_of_mem _ h1, hx⟩
        · have hdf : isDigitChar d = false := by simpa using hd
          simp only [splitStep, hc, hdf, Bool.false_eq_true, if_false, if_true] at hp
          rcases List.mem_cons.mp hp with h1 | h1
          · subst h1
            rw [List.mem_singleton] at hx
            exact Or.inl hx
          · exact Or.inr ⟨p, h1, hx⟩
    · have hcf : isDigitChar c = false := by simpa using hc
      cases p1 with
      | nil =>
        simp only [splitStep, hcf, Bool.false_eq_true, if_false] at hp
        rcases List.mem_cons.mp hp with h1 | h1
        · subst h1
          rw [List.mem_singleton] at hx
          exact Or.inl hx
        · exact Or.inr ⟨p, List.mem_cons_of_mem _ h1, hx⟩
      | cons d r =>
        by_cases hd : isDigitChar d = true
        · simp only [splitStep, hcf, hd, Bool.false_eq_true, if_false, if_true] at hp
          rcases List.mem_cons.mp hp with h1 | h1
          · subst h1
            rw [List.mem_singleton] at hx
            exact Or.inl hx
          · exact Or.inr ⟨p, h1, hx⟩
        · have hdf : isDigitChar d = false := by simpa using hd
          simp only [splitStep, hcf, hdf, Bool.false_eq_true, if_false] at hp
          rcases List.mem_cons.mp hp with h1 | h1
          · subst h1
            rcases List.mem_cons.mp hx with h2 | h2
            · exact Or.inl h2
            · exact Or.inr ⟨d :: r, List.mem_cons_self _ _, h2⟩
          · exact Or.inr ⟨p, List.mem_cons_of_mem _ h1, hx⟩

/-- Characters of the accumulated split parts come from the input. -/
theorem splitRuns_chars (cs : List Char) :
    ∀ p ∈ splitRuns cs, ∀ x ∈ p, x ∈ cs := by
  induction cs with
  | nil =>
    intro p hp x hx
    simp only [splitRuns, List.foldr_nil] at hp
    rw [List.mem_singleton] at hp
    subst hp
    cases hx
  | cons c rest ih =>
    intro p hp x hx
    have hstep : splitRuns (c :: rest) = splitStep c (splitRuns rest) := rfl
    rw [hstep] at hp
    rcases stepChars c (splitRuns rest) p hp x hx with h1 | ⟨p2, hp2, hx2⟩
    · subst h1
      exact List.mem_cons_self _ _
    · exact List.mem_cons_of_mem _ (ih p2 hp2 x hx2)

/-- Characters of the final split parts come from the input. -/
theorem reSplitL_chars (cs : List Char) :
    ∀ p ∈ reSplitL cs, ∀ x ∈ p, x ∈ cs := by
  intro p hp x hx
  unfold reSplitL at hp
  cases hsr : splitRuns cs with
  | nil =>
    rw [hsr] at hp
    simp only [] at hp
    rw [List.mem_singleton] at hp
    subst hp
    cases hx
  | cons p1 ps =>
    rw [hsr] at hp
    cases p1 with
    | nil =>
      simp only [] at hp
      rcases List.mem_cons.mp hp with h1 | h1
      · subst h1; cases hx
      · exact splitRuns_chars cs p (hsr ▸ List.mem_cons_of_mem _ h1) x hx
    | cons d r =>
      by_cases hd : isDigitChar d = true
      · simp only [hd, if_true] at hp
        rcases List.mem_cons.mp hp with h1 | h1
        · subst h1; cases hx
        · exact splitRuns_chars cs p (hsr ▸ h1) x hx
      · have hdf : isDigitChar d = false := by simpa using hd
        simp only [hdf, Bool.false_eq_true, if_false] at hp
        exact splitRuns_chars cs p (hsr ▸ hp) x hx

/-- Alternation of token types in a key list: the head is an integer
token exactly when the flag is true, and types alternate down the list. -/
inductive TokAlt : Bool → List Tok → Prop
  | nil (b : Bool) : TokAlt b []
  | consStr (s : String) (l : List Tok) : TokAlt true l → TokAlt false (Tok.str s :: l)
  | consNum (n : ℕ) (l : List Tok) : TokAlt false l → TokAlt true (Tok.num n :: l)

/-- Conversion of a text part whose characters are all ASCII yields a
string token: such a part contains no character that Python str.isdigit
accepts. -/
theorem convert_text {p : List Char} (hp : isTextRunL p)
    (hascii : ∀ x ∈ p, x.toNat < 128) : ∃ s, convert (String.mk p) = Tok.str s := by
  have hdk : pyIsDigit (String.mk p) = false := by
    cases p with
    | nil => rfl
    | cons c r =>
      have h2 : isDigitChar c = false := hp c (List.mem_cons_self c r)
      have h3 : c.toNat < 128 := hascii c (List.mem_cons_self c r)
      have h4 : decide (1632 ≤ c.toNat) = false := decide_eq_false (by omega)
      have h1 : pyCharIsDigit c = false := by
        unfold pyCharIsDigit
        rw [h2, h4]
        rfl
      simp [pyIsDigit, List.all_cons, h1]
  exact ⟨pyLower (String.mk p), by unfold convert; rw [hdk]; simp⟩

/-- Conversion of a digit run yields an integer token. -/
theorem convert_digit {p : List Char} (hp : isDigitRunL p) :
    ∃ n, convert (String.mk p) = Tok.num n := by
  obtain ⟨hne, hall⟩ := hp
  have hdk : pyIsDigit (String.mk p) = true := by
    cases p with
    | nil => exact absurd rfl hne
    | cons c r =>
      have hall2 : List.all (c :: r) pyCharIsDigit = true := by
        rw [List.all_eq_true]
        intro x hx
        unfold pyCharIsDigit
        rw [hall x hx]
        rfl
      show (!(c :: r).isEmpty && (c :: r).all pyCharIsDigit) = true
      rw [hall2]
      rfl
  exact ⟨pyInt (String.mk p), by unfold convert; rw [hdk]; simp⟩

/-- The tokens of an all-ASCII split alternate between string tokens and
integer tokens following the shape of the parts. -/
theorem partsToks : ∀ {b : Bool} {parts : List (List Char)}, PartsAlt b parts →
    (∀ p ∈ parts, ∀ x ∈ p, x.toNat < 128) →
    TokAlt b (parts.map (fun p => convert (String.mk p))) := by
  intro b parts h
  induction h with
  | lastText p hp =>
    intro hascii
    obtain ⟨s, hs⟩ := convert_text hp (hascii p (List.mem_cons_self p []))
    rw [List.map_cons, List.map_nil, hs]
    exact TokAlt.consStr s [] (TokAlt.nil true)
  | consText p rest hp hrest ih =>
    intro hascii
    obtain ⟨s, hs⟩ := convert_text hp (hascii p (List.mem_cons_self _ _))
    rw [List.map_cons, hs]
    exact TokAlt.consStr s _ (ih (fun p2 hp2 => hascii p2 (List.mem_cons_of_mem _ hp2)))
  | consDigit p rest hp hrest ih =>
    intro hascii
    obtain ⟨n, hn⟩ := convert_digit hp
    rw [List.map_cons, hn]
    exact TokAlt.consNum n _ (ih (fun p2 hp2 => hascii p2 (List.mem_cons_of_mem _ hp2)))

/-- The alphanum key of an all-ASCII identifier starts with a string token
and alternates token types. -/
theorem alphanum_key_alt (s : String) (hascii : ∀ c ∈ s.data, c.toNat < 128) :
    TokAlt false (alphanum_key s) := by
  unfold alphanum_key re_split
  rw [List.map_map]
  exact partsToks (reSplitL_alt s.data)
    (fun p hp x hx => hascii x (reSplitL_chars s.data p hp x hx))

/-- Python list comparison is defined on any two token lists whose types
alternate from the same starting type: the scan only ever compares tokens
of equal type. -/
theorem pyListLt_total : ∀ {l1 l2 : List Tok} {b : Bool},
    TokAlt b l1 → TokAlt b l2 → ∃ r, pyListLt l1 l2 = .ok r := by
  intro l1
  induction l1 with
  | nil =>
    intro l2 b _ _
    cases l2 with
    | nil => exact ⟨false, rfl⟩
    | cons t ts => exact ⟨true, rfl⟩
  | cons a as ih =>
    intro l2 b h1 h2
    cases l2 with
    | nil => exact ⟨false, rfl⟩
    | cons t ts =>
      cases h1 with
      | consStr s l hl =>
        cases h2 with
        | consStr s2 l2x hl2 =>
          unfold pyListLt
          by_cases he : pyTokEq (.str s) (.str s2) = true
          · rw [if_pos he]
            exact ih hl hl2
          · rw [if_neg he]
            exact ⟨strLtB s.data s2.data, rfl⟩
      | consNum n l hl =>
        cases h2 with
        | consNum n2 l2x hl2 =>
          unfold pyListLt
          by_cases he : pyTokEq (.num n) (.num n2) = true
          · rw [if_pos he]
            exact ih hl hl2
          · rw [if_neg he]
            exact ⟨decide (n < n2), rfl⟩

/-- The key comparison is defined on any two all-ASCII keys. -/
theorem keyLe_total {k1 k2 : String}
    (h1 : TokAlt false (alphanum_key k1)) (h2 : TokAlt false (alphanum_key k2)) :
    ∃ r, keyLe k1 k2 = .ok r := by
  obtain ⟨v, hv⟩ := pyListLt_total h2 h1
  exact ⟨!v, by unfold keyLe; rw [hv]⟩

/-- natural_sort succeeds on every mapping whose keys are all ASCII. -/
theorem natural_sort_total (m : List (String × ℚ))
    (hascii : ∀ e ∈ m, ∀ c ∈ (Prod.fst e).data, c.toNat < 128) :
    ∃ S, natural_sort m = .ok S := by
  have hkeys : ∀ k ∈ m.map Prod.fst, TokAlt false (alphanum_key k) := by
    intro k hk
    obtain ⟨e, he, hek⟩ := List.mem_map.mp hk
    exact alphanum_key_alt k (fun c hc => hascii e he c (by rw [hek]; exact hc))
  obtain ⟨ks, hks⟩ := sortE_total (fun a ha b hb => keyLe_total (hkeys a ha) (hkeys b hb))
  exact ⟨_, by unfold natural_sort; rw [hks]⟩

/-- C1: the spec demands that a zero total_aligned_reads be explicitly
guarded and reported as a fatal data error and never crash with an
unhandled exception.  The script has no guard: with any reference present
the division raises ZeroDivisionError, which no handler catches, so the
run dies with a traceback; with an empty reference dict the zero is not
even noticed and the run silently succeeds. -/
theorem c1_zero_aligned_unhandled :
    (∀ th : ℚ, parse_json_file docZeroAligned th = .error .zeroDivisionError) ∧
    (∀ th : ℚ, parse_json_file docZeroEmpty th = .ok (.jint 1000, .jint 0, [])) :=
  ⟨fun _ => rfl, fun _ => rfl⟩

/-- C2: natural_sort splits identifiers into maximal digit and non-digit
runs, compares digit runs by integer value and non-digit runs
case-insensitively, so the keys ref10, ref2, ref1 come out in the order
ref1, ref2, ref10 rather than lexicographically, and an uppercase REF10
still sorts after ref2. -/
theorem c2_natural_sort_order :
    (∀ x y z : ℚ, natural_sort [("ref10", x), ("ref2", y), ("ref1", z)] =
      .ok [("ref1", z), ("ref2", y), ("ref10", x)]) ∧
    (∀ x y : ℚ, natural_sort [("REF10", x), ("ref2", y)] =
      .ok [("ref2", y), ("REF10", x)]) ∧
    re_split "ref10" = ["ref", "10", ""] ∧
    convert "10" = .num 10 ∧
    convert "REF" = .str "ref" :=
  ⟨fun _ _ _ => rfl, fun _ _ => rfl, rfl, rfl, rfl⟩

/-- C6: on the end-to-end scenario document with sample S1 the pipeline
emits the counts line S1 1000 500 and, at threshold 10, the table lines
for chr1 (80.0) then chr2 (20.0) in that order; at threshold 50 only the
chr1 line remains. -/
theorem c6_end_to_end :
    run_pipeline docC6 10 "S1" =
      .ok ("S1\t1000\t500", ["S1\tchr1\t80.0", "S1\tchr2\t20.0"]) ∧
    run_pipeline docC6 50 "S1" =
      .ok ("S1\t1000\t500", ["S1\tchr1\t80.0"]) :=
  ⟨rfl, rfl⟩

/-- C7 counterexample: the claim says a non-numeric value under any
required key makes the program fail with a data error, but a string value
under reads.total_reads is passed through silently: parsing succeeds and
the counts line carries the string. -/
theorem c7_counterexample :
    parse_json_file docStrTotal 10 = .ok (.jstr "abc", .jint 500, [("chr1", 80)]) ∧
    run_pipeline docStrTotal 10 "S1" = .ok ("S1\tabc\t500", ["S1\tchr1\t80.0"]) :=
  ⟨rfl, rfl⟩

/-- C10 counterexample: the claim says the key comparison never compares
an integer token with a string token for any pair of identifiers, but
Python str.isdigit also accepts non-ASCII digits that re.split does not
capture: the Arabic-Indic digit three becomes the integer token 3 in the
position where the identifier a has a string token, and sorting the two
raises TypeError. -/
theorem c10_counterexample :
    natural_sort [("٣", (1 : ℚ)), ("a", 1)] = .error .typeError ∧
    alphanum_key "٣" = [.num 3] ∧
    alphanum_key "a" = [.str "a"] ∧
    pyTokLt (.str "a") (.num 3) = .error .typeError :=
  ⟨rfl, rfl, rfl, rfl⟩

/-- C3: every entry of the filtered mapping carries exactly the percentage
round(num_reads_mapped_to_reference / total_aligned_reads * 100, 1)
computed from its own record, stated with the field operations and the
floor-based rounding of the specification; concretely 33 over 100 gives
33.0 and 1 over 3 gives 33.3. -/
theorem c3_percentage_formula :
    (∀ (doc : JVal) (th : ℚ) (tr tm : JVal) (E : List (String × ℚ)) (r : String) (p : ℚ),
      parse_json_file doc th = .ok (tr, tm, E) → (r, p) ∈ E →
      ∃ refs1 refsD recd nv x y,
        pyGetItem doc "references" = .ok refs1 ∧
        pyGetItem refs1 "reference" = .ok refsD ∧
        pyGetItem refsD r = .ok recd ∧
        pyGetItem recd "num_reads_mapped_to_reference" = .ok nv ∧
        pyToNum nv = some x ∧ pyToNum tm = some y ∧ y ≠ 0 ∧
        p = round1 (x / y * 100)) ∧
    round1 ((33 : ℚ) / 100 * 100) = 33 ∧
    round1 ((1 : ℚ) / 3 * 100) = 333 / 10 := by
  refine ⟨?_, ?_, ?_⟩
  · intro doc th tr tm E r p hp hm
    obtain ⟨reads, refs1, refsD, keys, h1, h2, h3, h4, h5, h6, h7⟩ := parse_ok hp
    obtain ⟨recd, nv, x, y, g1, g2, g3, g4, g5, g6, g7⟩ := processKeys_mem h7 hm
    refine ⟨refs1, refsD, recd, nv, x, y, h4, h5, g1, g2, g3, g4, g5, ?_⟩
    rw [g6, pyRound1_eq, ratMulNat_eq, ratDiv_eq]
    norm_num
  · have h : ((33 : ℚ)) / 100 * 100 = 33 := by norm_num
    rw [h, ← pyRound1_eq]
    decide
  · have h : ((1 : ℚ)) / 3 * 100 = mkRat 100 3 := by rw [Rat.mkRat_eq_div]; norm_num
    have h2 : ((333 : ℚ)) / 10 = mkRat 333 10 := by rw [Rat.mkRat_eq_div]; norm_num
    rw [h, h2, ← pyRound1_eq]
    decide

/-- Witness for C3 at the scenario document: the chr1 entry of the
filtered mapping carries 80.0, which is the rounded percentage of its own
record. -/
theorem c3_witness :
    ∃ refs1 refsD recd nv x y,
      pyGetItem docC6 "references" = .ok refs1 ∧
      pyGetItem refs1 "reference" = .ok refsD ∧
      pyGetItem refsD "chr1" = .ok recd ∧
      pyGetItem recd "num_reads_mapped_to_reference" = .ok nv ∧
      pyToNum nv = some x ∧ pyToNum (.jint 500) = some y ∧ y ≠ 0 ∧
      (80 : ℚ) = round1 (x / y * 100) :=
  c3_percentage_formula.1 docC6 10 (.jint 1000) (.jint 500)
    [("chr1", 80), ("chr2", 20)] "chr1" 80 rfl (List.mem_cons_self _ _)

/-- C4: a successful parse keeps only entries whose rounded percentage is
at least the threshold, both in the filtered mapping and in the sorted
table built from it. -/
theorem c4_threshold_inclusive :
    ∀ (doc : JVal) (th : ℚ) (tr tm : JVal) (E S : List (String × ℚ)),
      parse_json_file doc th = .ok (tr, tm, E) →
      (∀ r p, (r, p) ∈ E → th ≤ p) ∧
      (natural_sort E = .ok S → ∀ r p, (r, p) ∈ S → th ≤ p) := by
  intro doc th tr tm E S hp
  have hE : ∀ r p, (r, p) ∈ E → th ≤ p := by
    intro r p hm
    obtain ⟨reads, refs1, refsD, keys, h1, h2, h3, h4, h5, h6, h7⟩ := parse_ok hp
    obtain ⟨recd, nv, x, y, g1, g2, g3, g4, g5, g6, g7⟩ := processKeys_mem h7 hm
    exact g7
  exact ⟨hE, fun hs r p hm => hE r p (natural_sort_mem hs hm)⟩

/-- Witness for C4 at the scenario document with threshold 10: the chr1
entry reports 80.0, which is at least 10. -/
theorem c4_witness : (10 : ℚ) ≤ 80 :=
  (c4_threshold_inclusive docC6 10 (.jint 1000) (.jint 500)
    [("chr1", 80), ("chr2", 20)] [("chr1", 80), ("chr2", 20)] rfl).1
    "chr1" 80 (List.mem_cons_self _ _)

/-- C5: in the sorted table of a successful run on a reference dict with
distinct keys, no reference appears twice, and every reference whose
computed percentage reaches the threshold appears exactly once. -/
theorem c5_exactly_once :
    ∀ (doc : JVal) (th : ℚ) (tr tm : JVal) (E S : List (String × ℚ))
      (refs1 : JVal) (l : List (String × JVal)),
      parse_json_file doc th = .ok (tr, tm, E) →
      pyGetItem doc "references" = .ok refs1 →
      pyGetItem refs1 "reference" = .ok (.jobj l) →
      (l.map Prod.fst).Nodup →
      natural_sort E = .ok S →
      (∀ r : String, (S.map Prod.fst).count r ≤ 1) ∧
      (∀ (r : String) (recd nv : JVal) (x y : ℚ), r ∈ l.map Prod.fst →
        pyGetItem (.jobj l) r = .ok recd →
        pyGetItem recd "num_reads_mapped_to_reference" = .ok nv →
        pyToNum nv = some x → pyToNum tm = some y → y ≠ 0 →
        th ≤ round1 (x / y * 100) →
        (S.map Prod.fst).count r = 1) := by
  intro doc th tr tm E S refs1 l hp hrefs hrefd hnd hs
  obtain ⟨reads, refs1x, refsDx, keys, h1, h2, h3, h4, h5, h6, h7⟩ := parse_ok hp
  have e4 : refs1x = refs1 := by rw [h4] at hrefs; exact (Except.ok.injEq _ _ ▸ hrefs)
  subst e4
  have e5 : refsDx = .jobj l := by rw [h5] at hrefd; exact (Except.ok.injEq _ _ ▸ hrefd)
  subst e5
  have e6 : keys = l.map Prod.fst := by
    unfold iterKeys at h6
    exact (Except.ok.injEq _ _ ▸ h6).symm
  subst e6
  have hsub : (E.map Prod.fst).Sublist (l.map Prod.fst) := processKeys_sublist h7
  have hEnd : (E.map Prod.fst).Nodup := hsub.nodup hnd
  have hperm : S.Perm E := natural_sort_perm hEnd hs
  have hpermf : (S.map Prod.fst).Perm (E.map Prod.fst) := hperm.map Prod.fst
  have hSnd : (S.map Prod.fst).Nodup := hpermf.nodup_iff.mpr hEnd
  constructor
  · exact fun r => List.nodup_iff_count_le_one.mp hSnd r
  · intro r recd nv x y hrk hr1 hr2 hx hyv hy0 hth
    have hq : pyDiv nv tm = .ok (ratDiv x y) := by
      simp only [pyDiv, hx, hyv]
      rw [if_neg hy0]
    have hth2 : th ≤ pyRound1 (ratMulNat (ratDiv x y) 100) := by
      rw [pyRound1_eq, ratMulNat_eq, ratDiv_eq]
      have hc : ((100 : ℕ) : ℚ) = (100 : ℚ) := by norm_num
      rw [hc]
      exact hth
    have hmemE : r ∈ E.map Prod.fst := processKeys_mem_of_qual h7 hrk hr1 hr2 hq hth2
    have h1c : (E.map Prod.fst).count r = 1 := List.count_eq_one_of_mem hEnd hmemE
    exact (hpermf.count_eq r).trans h1c

/-- Witness for C5 at the scenario document with threshold 10: chr1
qualifies and appears exactly once among the keys of the sorted table. -/
theorem c5_witness :
    (([("chr1", (80 : ℚ)), ("chr2", 20)].map Prod.fst).count "chr1") = 1 :=
  (c5_exactly_once docC6 10 (.jint 1000) (.jint 500)
      [("chr1", 80), ("chr2", 20)] [("chr1", 80), ("chr2", 20)]
      (.jobj [("reference", .jobj
        [("chr1", .jobj [("num_reads_mapped_to_reference", .jint 400)]),
         ("chr2", .jobj [("num_reads_mapped_to_reference", .jint 100)])])])
      [("chr1", .jobj [("num_reads_mapped_to_reference", .jint 400)]),
       ("chr2", .jobj [("num_reads_mapped_to_reference", .jint 100)])]
      rfl rfl rfl (by decide) rfl).2
    "chr1" (.jobj [("num_reads_mapped_to_reference", .jint 400)]) (.jint 400) 400 500
    (by decide) rfl rfl rfl rfl (by decide)
    (by
      have h : ((400 : ℚ)) / 500 * 100 = 80 := by norm_num
      rw [h, ← pyRound1_eq]
      decide)

/-- C7 amended: a missing required key always aborts the run with a
KeyError naming the key, and a non-numeric total_aligned_reads or
per-reference read count aborts with a TypeError once a reference is
processed; but a non-numeric reads.total_reads is not detected at all:
the parse succeeds and passes the string through. -/
theorem c7_amended :
    (∀ (l : List (String × JVal)) (th : ℚ), l.lookup "reads" = none →
      parse_json_file (.jobj l) th = .error (.keyError "reads")) ∧
    (∀ th : ℚ, parse_json_file (.jobj [("reads", .jobj [])]) th =
      .error (.keyError "total_reads")) ∧
    (∀ (th : ℚ) (v : JVal),
      parse_json_file (.jobj [("reads", .jobj [("total_reads", v)])]) th =
        .error (.keyError "total_aligned_reads")) ∧
    (∀ (th : ℚ) (v w : JVal),
      parse_json_file
        (.jobj [("reads", .jobj [("total_reads", v), ("total_aligned_reads", w)])]) th =
        .error (.keyError "references")) ∧
    (∀ (th : ℚ) (v w : JVal),
      parse_json_file
        (.jobj [("reads", .jobj [("total_reads", v), ("total_aligned_reads", w)]),
                ("references", .jobj [])]) th = .error (.keyError "reference")) ∧
    (∀ th : ℚ, parse_json_file docMissingNum th =
      .error (.keyError "num_reads_mapped_to_reference")) ∧
    (∀ th : ℚ, parse_json_file docStrNum th = .error .typeError) ∧
    (∀ th : ℚ, parse_json_file docStrAligned th = .error .typeError) ∧
    parse_json_file docStrTotal 90 = .ok (.jstr "abc", .jint 500, []) := by
  refine ⟨?_, fun th => rfl, fun th v => rfl, fun th v w => rfl, fun th v w => rfl,
    fun th => rfl, fun th => rfl, fun th => rfl, rfl⟩
  intro l th h
  simp [parse_json_file, pyGetItem, h]

/-- Witness for C7 amended: a document without a reads record aborts with
KeyError on reads. -/
theorem c7_amended_witness :
    parse_json_file (.jobj []) 10 = .error (.keyError "reads") :=
  c7_amended.1 [] 10 rfl

/-- C8: the extractor and the sort are pure functions of their arguments:
two runs on the same document and threshold, or on the same mapping,
return the same result. -/
theorem c8_deterministic :
    (∀ (doc : JVal) (th : ℚ) (r1 r2 : Except PyErr (JVal × JVal × List (String × ℚ))),
      parse_json_file doc th = r1 → parse_json_file doc th = r2 → r1 = r2) ∧
    (∀ (m : List (String × ℚ)) (s1 s2 : Except PyErr (List (String × ℚ))),
      natural_sort m = s1 → natural_sort m = s2 → s1 = s2) := by
  constructor
  · intro doc th r1 r2 h1 h2
    rw [← h1]
    exact h2
  · intro m s1 s2 h1 h2
    rw [← h1]
    exact h2

/-- Witness for C8 at the scenario document and threshold 10. -/
theorem c8_witness :
    (Except.ok (JVal.jint 1000, JVal.jint 500, [("chr1", (80 : ℚ)), ("chr2", 20)]) :
      Except PyErr (JVal × JVal × List (String × ℚ))) =
    Except.ok (JVal.jint 1000, JVal.jint 500, [("chr1", (80 : ℚ)), ("chr2", 20)]) :=
  c8_deterministic.1 docC6 10 _ _ rfl rfl

/-- C9: a successful natural_sort only reorders its input: the result is
a permutation of the entries, so the key multiset is unchanged and every
key keeps its percentage. -/
theorem c9_sort_permutes :
    ∀ (m S : List (String × ℚ)), (m.map Prod.fst).Nodup → natural_sort m = .ok S →
      S.Perm m ∧ (S.map Prod.fst).Perm (m.map Prod.fst) ∧
      (∀ k v, (k, v) ∈ S ↔ (k, v) ∈ m) := by
  intro m S hnd hs
  have hp := natural_sort_perm hnd hs
  exact ⟨hp, hp.map Prod.fst, fun k v => hp.mem_iff⟩

/-- Witness for C9 on a two-entry mapping that the sort reverses. -/
theorem c9_witness :
    (([("a", (2 : ℚ)), ("b", 1)] : List (String × ℚ)).Perm [("b", 1), ("a", 2)]) ∧
    ((([("a", (2 : ℚ)), ("b", 1)] : List (String × ℚ)).map Prod.fst).Perm
      (([("b", (1 : ℚ)), ("a", 2)] : List (String × ℚ)).map Prod.fst)) ∧
    (∀ k v, ((k, v) ∈ ([("a", (2 : ℚ)), ("b", 1)] : List (String × ℚ))) ↔
      (k, v) ∈ ([("b", (1 : ℚ)), ("a", 2)] : List (String × ℚ))) :=
  c9_sort_permutes [("b", 1), ("a", 2)] [("a", 2), ("b", 1)] (by decide) rfl

/-- C10 amended: for identifiers made of ASCII characters the invariant of
the claim holds: the alphanum key alternates string and integer tokens
starting with a string token, so any two such keys agree in token type at
every shared position and the sort always succeeds. -/
theorem c10_amended_ascii :
    (∀ s : String, (∀ c ∈ s.data, c.toNat < 128) → TokAlt false (alphanum_key s)) ∧
    (∀ m : List (String × ℚ), (∀ e ∈ m, ∀ c ∈ (Prod.fst e).data, c.toNat < 128) →
      ∃ S, natural_sort m = .ok S) :=
  ⟨alphanum_key_alt, natural_sort_total⟩

/-- Witness for C10 amended on ASCII inputs. -/
theorem c10_amended_witness :
    TokAlt false (alphanum_key "ref10") ∧
    ∃ S, natural_sort [("ref10", (1 : ℚ)), ("a", 2)] = .ok S :=
  ⟨c10_amended_ascii.1 "ref10" (by decide), c10_amended_ascii.2 _ (by decide)⟩
